import Mathlib

/-!
Verification of the asynchronous-core combinators of a thread-per-core
runtime framework (seastar): `with_lock`, `sleep_abortable`, the loop
combinators (`do_for_each`, `repeat`, `parallel_for_each`,
`max_concurrent_for_each`) and the `gate` destructor invariant.

The C++ sources are shallowly embedded at the value level: a future is
its eventual result (`Except err Unit`) together with an availability
flag where the code branches on readiness; the cooperative preemption
flag (`need_preempt`) is an explicit oracle (a list of booleans, one
per consultation); background concurrency (`max_concurrent_for_each`)
is a small-step transition relation over an explicit state.
-/

namespace SeastarSpec

/-- Result channel of a `future` at the value level: either a value or an
opaque error, as in spec section 4.2. -/
abbrev FResult (ε : Type) (α : Type) := Except ε α

/-- Extract the error of a result, if any. -/
def errOf {ε α : Type} : Except ε α → Option ε
  | .ok _ => none
  | .error e => some e

/-- Modelled from the spec: section 4.2 `then` on the value level.
`future.hh` is not among the sources; per the spec, a plain `then` skips
the user callback on failure and forwards the error unchanged. -/
def fthen {ε α β : Type} (f : Except ε α) (k : α → Except ε β) : Except ε β :=
  match f with
  | .ok a => k a
  | .error e => .error e

/-- Modelled from the spec: section 4.2 `then_wrapped` on the value level.
`future.hh` is not among the sources; per the spec, `then_wrapped` hands
the full result (value or exception) to the callback, on every path. -/
def then_wrapped {ε α β : Type} (f : Except ε α) (k : Except ε α → Except ε β) : Except ε β :=
  k f

/-! ## `with_lock` (include/seastar/core/do_with.hh, lines 175-184)

A lockable is any object providing `lock()` returning a future and a
synchronous `unlock()`; both may act on some lock state `σ`. -/

/-- A lockable in the sense of `with_lock`: `lock` returns a future (here:
the post-lock state and the lock-acquire result) and `unlock` is a
synchronous state transformer. -/
structure Lockable (σ ε : Type) where
  lock : σ → σ × Except ε Unit
  unlock : σ → σ

/-- Embedding of `with_lock` (do_with.hh lines 175-184):
`lock.lock().then(run func).then_wrapped(unlock and forward)`.
The `then_wrapped` stage runs whether the preceding chain succeeded or
failed, so `unlock` is applied on every path. Returns the final lock
state and the result carried by the returned future. -/
def with_lock {σ ε β : Type} (lk : Lockable σ ε) (func : Unit → Except ε β) (s : σ) :
    σ × Except ε β :=
  let l := lk.lock s
  let chained : Except ε β := fthen l.2 (fun _ => func ())
  then_wrapped chained (fun fut => (fut : Except ε β)) |> fun fut => (lk.unlock l.1, fut)

/-- Instrument a lockable so that the state also counts how many times
`unlock` has been invoked. -/
def countUnlocks {σ ε : Type} (lk : Lockable σ ε) : Lockable (σ × Nat) ε where
  lock := fun sn =>
    let r := lk.lock sn.1
    ((r.1, sn.2), r.2)
  unlock := fun sn => (lk.unlock sn.1, sn.2 + 1)

/-! ## Abortable sleep (src/core/gate.cc, second unit, lines 65-105)

`sleep_abortable(duration, abort_source)` builds a `sleeper`: it
subscribes to the abort source, and if the subscription is granted it
arms a timer for the duration. The timer callback resolves the promise
with a value; the abort callback cancels the timer and, if the
cancellation succeeded (the timer was still armed), fails the promise
with `sleep_aborted`. If the source was already aborted at entry the
subscription is refused and the promise fails immediately.

The timer contract is taken from the timer header among the sources:
`cancel()` returns true if and only if the timer was armed before the
call, and firing disarms the timer, so a fire and a successful cancel
are mutually exclusive. The one-shot abort source contract
(`subscribe` returns nothing on an already-aborted source) is modelled
from the spec, section 4.6, as `abort_source` is not among the
sources. -/

/-- Synchronization errors relevant to the sleep facilities
(spec section 7). -/
inductive AsyncError : Type
  | sleepAborted
  | condVarTimedOut
  deriving DecidableEq, Repr

/-- An external event delivered to a sleeper: its timer expires, or the
abort source fires its subscription callback. -/
inductive SleepEvent : Type
  | timerFire
  | abortFires
  deriving DecidableEq, Repr

/-- State of one `sleeper`: whether its timer is currently armed, and the
resolution of its promise, once set. -/
structure SleeperState : Type where
  armed : Bool
  done : Option (Except AsyncError Unit)
  deriving Repr

/-- Constructor of `sleeper` (gate.cc lines 86-99): if the abort source is
already aborted, `subscribe` yields nothing and the promise fails with
`sleep_aborted` (the timer is never armed); otherwise the timer is
armed for the duration. -/
def sleeperInit (abortedAtEntry : Bool) : SleeperState :=
  if abortedAtEntry then
    { armed := false, done := some (.error .sleepAborted) }
  else
    { armed := true, done := none }

/-- One event step of a `sleeper`.
Timer expiry (only possible while armed) disarms the timer and resolves
the promise with a value. The abort callback runs `tmr.cancel()`: if the
timer was still armed the cancel succeeds, the timer is disarmed and the
promise fails with `sleep_aborted`; if not (the timer already fired or
was never armed), the abort is a no-op. -/
def sleeperStep (s : SleeperState) : SleepEvent → SleeperState
  | .timerFire =>
      if s.armed then { armed := false, done := some (.ok ()) } else s
  | .abortFires =>
      if s.armed then { armed := false, done := some (.error .sleepAborted) } else s

/-- Run a `sleeper` over a sequence of events. -/
def sleeperRun (abortedAtEntry : Bool) (evs : List SleepEvent) : SleeperState :=
  evs.foldl sleeperStep (sleeperInit abortedAtEntry)

/-- Modelled from the spec: the reactor collaborator
`wait_for_stop(duration)` (spec section 6) resolves when the engine is
shutting down; under a duration it fails with the condition-variable
timeout error when the duration elapses first. The reactor is not among
the sources. -/
inductive WaitForStopOutcome : Type
  | engineStopped
  | timedOut
  deriving DecidableEq, Repr

/-- Modelled from the spec: result of `engine().wait_for_stop(dur)` —
success if the engine initiated shutdown before the duration elapsed,
the condition-variable timeout error otherwise. -/
def wait_for_stop (o : WaitForStopOutcome) : Except AsyncError Unit :=
  match o with
  | .engineStopped => .ok ()
  | .timedOut => .error .condVarTimedOut

/-- Modelled from the spec: section 4.2 `handle_exception` on the value
level — the handler runs only on failure and may convert the error to a
value or rethrow. -/
def handle_exception {ε α : Type} (f : Except ε α) (h : ε → Except ε α) : Except ε α :=
  match f with
  | .ok a => .ok a
  | .error e => h e

/-- Embedding of `sleep_abortable(duration)` with no abort source
(gate.cc second unit, lines 65-74): wait for engine stop with a timeout,
`then` throw `sleep_aborted`, and `handle_exception` swallowing only
`condition_variable_timed_out`. -/
def sleep_abortable_nosrc (o : WaitForStopOutcome) : Except AsyncError Unit :=
  handle_exception (fthen (wait_for_stop o) (fun _ => .error .sleepAborted))
    (fun e =>
      match e with
      | .condVarTimedOut => .ok ()
      | e => .error e)

/-! ## Gate destructor (src/core/gate.cc, lines 26-30)

The gate structure itself (`gate.hh`) is not among the sources; its
count and closed flag follow the spec, section 4.4. The destructor is
among the sources: it asserts that the count is zero and does not
inspect the closed flag (the comment there notes a gate that was never
used may be destroyed). -/

/-- Observable state of a `gate` (spec section 4.4): the number of
outstanding `enter` calls and whether `close()` has been called. -/
structure GateState : Type where
  count : Nat
  closed : Bool
  deriving DecidableEq, Repr

/-- Embedding of `gate::~gate` (gate.cc lines 26-30): the destructor's
assertion, true exactly when the entry count is zero; the closed flag is
not consulted. -/
def gate_dtor_passes (g : GateState) : Bool :=
  g.count == 0

/-- Modelled from the spec: `gate::enter` (spec section 4.4) fails with
`GateClosed` when the gate has been closed, and otherwise increments the
count. `gate.hh` is not among the sources. -/
def gate_enter (g : GateState) : GateState × Bool :=
  if g.closed then (g, false) else ({ g with count := g.count + 1 }, true)

/-- Modelled from the spec: `gate::leave` (spec section 4.4) decrements
the count. -/
def gate_leave (g : GateState) : GateState :=
  { g with count := g.count - 1 }

/-! ## Sequential loop: `do_for_each` (include/seastar/core/loop.hh)

`internal::do_for_each_impl` (lines 412-427) invokes the action on the
next element; a failed future short-circuits; a non-available future or
a pending preemption request allocates a `do_for_each_state` whose
`run_and_dispose` (lines 383-403) resumes the same loop. The embedding
records a trace of events — invocation, resolution, suspension — and
the result carried by the returned future. The preemption flag is an
oracle consumed once per consultation. -/

/-- The future returned by one action invocation: whether it is already
available when the loop inspects it, and its eventual result. -/
structure FutSpec (ε : Type) : Type where
  avail : Bool
  res : Except ε Unit

/-- Observable events of a sequential loop run: an action invocation on
an element, the resolution of that invocation's future, and a
suspension of the loop (continuation allocated or rescheduled). -/
inductive LoopEv (α ε : Type) : Type
  | invoke (a : α)
  | resolved (a : α) (r : Except ε Unit)
  | suspends

/-- Embedding of `internal::do_for_each_impl` together with
`do_for_each_state::run_and_dispose` (loop.hh lines 383-427): walk the
range; short-circuit on a failed invocation; on a non-available future
or a preemption request, suspend and resume the identical loop. Returns
the event trace and the loop's result. -/
def do_for_each_impl {α ε : Type} (action : α → FutSpec ε) :
    List α → List Bool → List (LoopEv α ε) × Except ε Unit
  | [], _ => ([], .ok ())
  | a :: rest, pre =>
    let f := action a
    if f.avail then
      match f.res with
      | .error e => ([.invoke a, .resolved a (.error e)], .error e)
      | .ok _ =>
        let r := do_for_each_impl action rest pre.tail
        (if pre.headD false
          then .invoke a :: .resolved a (.ok ()) :: .suspends :: r.1
          else .invoke a :: .resolved a (.ok ()) :: r.1, r.2)
    else
      match f.res with
      | .error e => ([.invoke a, .suspends, .resolved a (.error e)], .error e)
      | .ok _ =>
        let r := do_for_each_impl action rest pre
        (.invoke a :: .suspends :: .resolved a (.ok ()) :: r.1, r.2)

/-- The result `do_for_each` is specified to produce: the first error
among the invocations, in range order, or success if none fails. -/
def firstErrResult {α ε : Type} (action : α → FutSpec ε) : List α → Except ε Unit
  | [] => .ok ()
  | a :: rest =>
    match (action a).res with
    | .error e => .error e
    | .ok _ => firstErrResult action rest

/-- The elements `do_for_each` is specified to invoke the action on: the
range up to and including the first failing element. -/
def invokedUpTo {α ε : Type} (action : α → FutSpec ε) : List α → List α
  | [] => []
  | a :: rest =>
    match (action a).res with
    | .error _ => [a]
    | .ok _ => a :: invokedUpTo action rest

/-- The elements a trace invokes the action on, in trace order. -/
def invokesOf {α ε : Type} : List (LoopEv α ε) → List α :=
  List.filterMap fun ev =>
    match ev with
    | .invoke a => some a
    | _ => none

/-- Sequentiality check of a trace, tracking the at-most-one outstanding
invocation: a new invocation may start only when no invocation is
outstanding, each resolution must match the outstanding invocation, and
no invocation is left unresolved at the end. -/
def seqOkFrom {α ε : Type} [DecidableEq α] : Option α → List (LoopEv α ε) → Bool
  | none, [] => true
  | some _, [] => false
  | none, .invoke a :: rest => seqOkFrom (some a) rest
  | none, .resolved _ _ :: _ => false
  | none, .suspends :: rest => seqOkFrom (none : Option α) rest
  | some _, .invoke _ :: _ => false
  | some a, .resolved b _ :: rest => if a = b then seqOkFrom (none : Option α) rest else false
  | some a, .suspends :: rest => seqOkFrom (some a) rest

/-- A trace is sequential when, starting with no outstanding invocation,
every invocation's future resolves before the next invocation starts. -/
def seqOk {α ε : Type} [DecidableEq α] (tr : List (LoopEv α ε)) : Bool :=
  seqOkFrom none tr

/-! ## `repeat` (include/seastar/core/loop.hh, lines 113-134)

The entry loop invokes the action; if the future is not available, is
failed, or preemption is requested, it allocates a `repeater`
continuation (lines 49-90) and hooks it onto the future — scheduling it
at once if the future was already available; only a ready success
carrying `stop_iteration::yes` with no preemption pending returns a
ready future with no allocation. The action is embedded as the finite
script of futures its successive invocations return; running past the
script is not reached under the claims and stops the loop. -/

/-- The `stop_iteration` bool-class (loop.hh lines 43-44). -/
inductive StopIteration : Type
  | yes
  | no
  deriving DecidableEq, Repr

/-- The future returned by one `repeat` action invocation. -/
structure RepeatFut (ε : Type) : Type where
  avail : Bool
  res : Except ε StopIteration

/-- Outcome of a `repeat` call: whether the returned future was already
ready at return, how many `repeater` continuations were allocated, how
many explicit `schedule` calls happened, and the eventual result. -/
structure RepeatResult (ε : Type) : Type where
  ready : Bool
  allocs : Nat
  scheds : Nat
  res : Except ε Unit

/-- Embedding of `repeater<AsyncAction>::run_and_dispose` (loop.hh lines
56-89) from the point where the last future resolved with
`stop_iteration::no`: invoke the action; a failure or a `yes` resolves
the promise; a non-available future re-hooks the repeater (no further
allocation); after a ready `no` the preemption flag is consulted and, if
set, the repeater re-schedules itself. Returns the number of `schedule`
calls and the result. -/
def repeaterInner {ε : Type} : List (RepeatFut ε) → List Bool → Nat × Except ε Unit
  | [], _ => (0, .ok ())
  | g :: rest, pre =>
    match g.res with
    | .error e => (0, .error e)
    | .ok .yes => (0, .ok ())
    | .ok .no =>
      if g.avail then
        let r := repeaterInner rest pre.tail
        (if pre.headD false then r.1 + 1 else r.1, r.2)
      else
        repeaterInner rest pre

/-- Embedding of the slow path of `repeat` (loop.hh lines 120-127):
allocate a `repeater` and hook it on the first future with
`set_callback` — which schedules it immediately when that future is
already available — then continue as the repeater does. -/
def repeatSlow {ε : Type} (f : RepeatFut ε) (rest : List (RepeatFut ε)) (pre : List Bool) :
    RepeatResult ε :=
  let schedNow : Nat := if f.avail then 1 else 0
  match f.res with
  | .error e => { ready := false, allocs := 1, scheds := schedNow, res := .error e }
  | .ok .yes => { ready := false, allocs := 1, scheds := schedNow, res := .ok () }
  | .ok .no =>
    let r := repeaterInner rest pre
    { ready := false, allocs := 1, scheds := schedNow + r.1, res := r.2 }

/-- Embedding of `repeat` (loop.hh lines 113-134): the entry loop. An
invocation whose future is not available, or is failed, or with
preemption requested, takes the slow path; a ready `yes` returns a ready
future with no allocation and no scheduling; a ready `no` loops. -/
def repeatRun {ε : Type} : List (RepeatFut ε) → List Bool → RepeatResult ε
  | [], _ => { ready := true, allocs := 0, scheds := 0, res := .ok () }
  | f :: rest, pre =>
    if f.avail then
      match f.res with
      | .error _ => repeatSlow f rest pre
      | .ok v =>
        if pre.headD false then
          repeatSlow f rest pre.tail
        else
          match v with
          | .yes => { ready := true, allocs := 0, scheds := 0, res := .ok () }
          | .no => repeatRun rest pre.tail
    else
      repeatSlow f rest pre

/-! ## `parallel_for_each` (include/seastar/core/loop.hh, lines 542-568)

The loop invokes the action eagerly on every element; futures that are
already available and successful need no bookkeeping; any other future
is collected into a lazily allocated `parallel_for_each_state`. With
nothing collected the call returns a ready successful future. The
completion logic of `parallel_for_each_state` (waiting for all collected
futures, surfacing one of the collected exceptions) lives in a source
file that is not among the sources; it is modelled from the spec,
sections 4.3.2 and 7, picking the first collected error. -/

/-- Outcome of a `parallel_for_each` call: the elements the action was
invoked on, whether a state was allocated, whether the returned future
was ready at return, and the eventual result. -/
structure ParRun (α ε : Type) : Type where
  invoked : List α
  allocated : Bool
  ready : Bool
  res : Except ε Unit

/-- Embedding of `parallel_for_each` (loop.hh lines 542-568); the
completion of collected futures is modelled from the spec as described
above. -/
def parallel_for_each {α ε : Type} (action : α → FutSpec ε) (elems : List α) : ParRun α ε :=
  let collected := elems.filter fun a => !(action a).avail || (errOf (action a).res).isSome
  { invoked := elems
    allocated := !collected.isEmpty
    ready := collected.isEmpty
    res :=
      match collected.filterMap (fun a => errOf (action a).res) with
      | [] => .ok ()
      | e :: _ => .error e }

/-! ## `max_concurrent_for_each` (include/seastar/core/loop.hh, lines 630-681)

A `do_until` loop waits for one semaphore unit, then launches the action
on the next element in the background; the background continuation
records the first observed failure and signals the unit back. When the
range is exhausted the caller waits for all `max_concurrent` units, then
surfaces the recorded error, if any. The counting semaphore is not
among the sources; its unit accounting is modelled from the spec,
section 4.3.3. Background completion order is arbitrary, so the run is
a small-step transition relation. -/

/-- State of a `max_concurrent_for_each` run: the unprocessed range, the
semaphore's available units, the launched-but-unfinished elements, the
completions in completion order, the first recorded error, all launched
elements in launch order, and whether the loop has moved to draining
(range exhausted, reacquiring all units) and to finished (result
delivered). -/
structure MCState (α ε : Type) : Type where
  remaining : List α
  units : Nat
  inflight : List α
  completions : List (α × Except ε Unit)
  err : Option ε
  launched : List α
  draining : Bool
  finished : Bool

/-- The error-recording step of the background continuation (loop.hh
lines 658-663): only the first observed failure is kept. -/
def updErr {ε : Type} (cur : Option ε) (r : Except ε Unit) : Option ε :=
  match cur with
  | some e => some e
  | none => errOf r

/-- Initial state of a `max_concurrent_for_each` run: the semaphore holds
all `max_concurrent` units and nothing has been launched. -/
def mcInit {α ε : Type} (elems : List α) (mc : Nat) : MCState α ε :=
  { remaining := elems, units := mc, inflight := [], completions := [], err := none,
    launched := [], draining := false, finished := false }

/-- Small-step transitions of `max_concurrent_for_each` (loop.hh lines
652-677): `launch` models one `do_until` iteration (a unit is granted by
`sem.wait()` and the action invocation on the next element is put in
flight); `complete` models a background continuation finishing in any
order (recording the first failure and signalling its unit back);
`drainStart` models the loop exiting when the range is exhausted;
`finish` models `sem.wait(max_concurrent)` succeeding once every unit is
back, delivering the result. -/
inductive MCStep {α ε : Type} (action : α → Except ε Unit) (mc : Nat) :
    MCState α ε → MCState α ε → Prop
  | launch (s : MCState α ε) (a : α) (rest : List α) :
      s.draining = false → s.remaining = a :: rest → 0 < s.units →
      MCStep action mc s
        { s with
          remaining := rest
          units := s.units - 1
          inflight := s.inflight ++ [a]
          launched := s.launched ++ [a] }
  | complete (s : MCState α ε) (a : α) (fore aft : List α) :
      s.inflight = fore ++ a :: aft →
      MCStep action mc s
        { s with
          inflight := fore ++ aft
          completions := s.completions ++ [(a, action a)]
          err := updErr s.err (action a)
          units := s.units + 1 }
  | drainStart (s : MCState α ε) :
      s.draining = false → s.remaining = [] →
      MCStep action mc s { s with draining := true }
  | finish (s : MCState α ε) :
      s.draining = true → s.units = mc →
      MCStep action mc s { s with finished := true }

/-- Reachability of the `max_concurrent_for_each` transition system. -/
def MCReach {α ε : Type} (action : α → Except ε Unit) (mc : Nat) :
    MCState α ε → MCState α ε → Prop :=
  Relation.ReflTransGen (MCStep action mc)

/-- First error among completions, in completion order. -/
def firstErrOf {α ε : Type} : List (α × Except ε Unit) → Option ε
  | [] => none
  | (_, r) :: rest =>
    match errOf r with
    | some e => some e
    | none => firstErrOf rest

/-- The result the final continuation delivers (loop.hh lines 671-676):
the recorded error if there is one, success otherwise. -/
def mcResult {α ε : Type} (s : MCState α ε) : Except ε Unit :=
  match s.err with
  | some e => .error e
  | none => .ok ()

/-- Inductive invariant of the `max_concurrent_for_each` system: units
and in-flight work partition the semaphore's capacity; the recorded
error is the first error in completion order; completed and in-flight
elements are a permutation of all launched elements; every completion
carries its action's result; a finished run is draining with all units
back; a draining run has exhausted its range. -/
structure MCInv {α ε : Type} (action : α → Except ε Unit) (mc : Nat)
    (s : MCState α ε) : Prop where
  unitsBalance : s.units + s.inflight.length = mc
  errFirst : s.err = firstErrOf s.completions
  launchedPerm : (s.completions.map Prod.fst ++ s.inflight).Perm s.launched
  compResults : ∀ p ∈ s.completions, p.2 = action p.1
  finishedImp : s.finished = true → s.draining = true ∧ s.units = mc
  drainingImp : s.draining = true → s.remaining = []

end SeastarSpec

namespace SeastarSpec

/-- C1: for every lockable and function passed to `with_lock`, if the lock
is acquired then the lock is released exactly once (the instrumented
unlock counter ends at one, and the final state is one `unlock` applied
to the post-lock state) whether the function returns a value or an
error, and the returned future carries the function's result; if the
lock-acquire step fails, the returned future carries the lock-acquire
error. -/
theorem with_lock_spec {σ ε β : Type} (lk : Lockable σ ε) (func : Unit → Except ε β) (s : σ) :
    ((lk.lock s).2 = .ok () →
      (with_lock lk func s).2 = func () ∧
      (with_lock lk func s).1 = lk.unlock (lk.lock s).1 ∧
      ((with_lock (countUnlocks lk) func (s, 0)).1).2 = 1) ∧
    (∀ e, (lk.lock s).2 = .error e → (with_lock lk func s).2 = .error e) := by
  constructor
  · intro hok
    refine ⟨?_, ?_, ?_⟩
    · simp [with_lock, hok, fthen, then_wrapped]
    · simp [with_lock]
    · simp [with_lock, countUnlocks]
  · intro e herr
    simp [with_lock, herr, fthen, then_wrapped]

/-- Witness for C1: a concrete boolean lockable whose `lock` succeeds;
`with_lock` returns the function's value and unlocks exactly once. -/
theorem with_lock_spec_witness :
    (({ lock := fun _ => (true, .ok ()), unlock := fun _ => false } : Lockable Bool Unit).lock
        false).2 = .ok () ∧
      (with_lock { lock := fun _ => (true, .ok ()), unlock := fun _ => false }
          (fun _ => (.ok 7 : Except Unit Nat)) false).2 = .ok 7 :=
  ⟨rfl, ((with_lock_spec { lock := fun _ => (true, .ok ()), unlock := fun _ => false }
      (fun _ => (.ok 7 : Except Unit Nat)) false).1 rfl).1.trans rfl⟩

/-- C10: for every lockable whose `lock()` returns a failed future,
`with_lock` still invokes `unlock()` on it exactly once — the final
state is one `unlock` applied to the post-lock state and the
instrumented unlock counter ends at one — even though the lock was
never acquired, and the returned future carries the lock-acquire error;
the function is never run (its result is not consulted). -/
theorem with_lock_unlocks_on_lock_failure {σ ε β : Type} (lk : Lockable σ ε)
    (func : Unit → Except ε β) (s : σ) (e : ε) (herr : (lk.lock s).2 = .error e) :
    (with_lock lk func s).2 = .error e ∧
    (with_lock lk func s).1 = lk.unlock (lk.lock s).1 ∧
    ((with_lock (countUnlocks lk) func (s, 0)).1).2 = 1 := by
  refine ⟨?_, ?_, ?_⟩
  · simp [with_lock, herr, fthen, then_wrapped]
  · simp [with_lock]
  · simp [with_lock, countUnlocks]

/-- Witness for C10: a lockable whose `lock` fails outright; `with_lock`
still unlocks once and surfaces the lock-acquire error. -/
theorem with_lock_unlocks_on_lock_failure_witness :
    (with_lock { lock := fun n => (n, .error 3), unlock := fun n => n + 1 }
        (fun _ => (.ok () : Except Nat Unit)) (0 : Nat)).2 = .error 3 ∧
      (with_lock (countUnlocks { lock := fun n => (n, .error 3), unlock := fun n => n + 1 })
          (fun _ => (.ok () : Except Nat Unit)) ((0 : Nat), 0)).1.2 = 1 := by
  have h := with_lock_unlocks_on_lock_failure
      { lock := fun n => (n, .error 3), unlock := fun n => n + 1 }
      (fun _ => (.ok () : Except Nat Unit)) (0 : Nat) 3 rfl
  exact ⟨h.1, h.2.2⟩

/-- Once a sleeper's timer is disarmed, no further event changes its
state: a later fire or abort is a no-op. -/
theorem sleeperRun_frozen (evs : List SleepEvent) :
    ∀ s : SleeperState, s.armed = false → evs.foldl sleeperStep s = s := by
  induction evs with
  | nil => intro s _; rfl
  | cons ev rest ih =>
    intro s hs
    have hstep : sleeperStep s ev = s := by
      cases ev <;> simp [sleeperStep, hs]
    simpa [hstep] using ih s hs

/-- C2: for every duration and abort source, `sleep_abortable` fails with
`SleepAborted` if the abort source was already aborted at entry
(whatever events follow) or if the abort arrives before the timer fires
(disarming the timer, so later fires are no-ops); and if the timer fires
first the future resolves with success and a later abort is a no-op.
Events beyond the first are arbitrary. -/
theorem sleep_abortable_abort_spec (evs : List SleepEvent) :
    (sleeperRun true evs).done = some (.error .sleepAborted) ∧
    (sleeperRun false (.abortFires :: evs)).done = some (.error .sleepAborted) ∧
    (sleeperRun false (.abortFires :: evs)).armed = false ∧
    (sleeperRun false (.timerFire :: evs)).done = some (.ok ()) := by
  have h1 : sleeperRun true evs = sleeperInit true := by
    apply sleeperRun_frozen
    rfl
  have h2 : sleeperRun false (.abortFires :: evs)
      = { armed := false, done := some (.error .sleepAborted) } := by
    show evs.foldl sleeperStep (sleeperStep (sleeperInit false) .abortFires) = _
    have : sleeperStep (sleeperInit false) .abortFires
        = { armed := false, done := some (.error .sleepAborted) } := by
      simp [sleeperStep, sleeperInit]
    rw [this]
    exact sleeperRun_frozen evs _ rfl
  have h3 : sleeperRun false (.timerFire :: evs)
      = { armed := false, done := some (.ok ()) } := by
    show evs.foldl sleeperStep (sleeperStep (sleeperInit false) .timerFire) = _
    have : sleeperStep (sleeperInit false) .timerFire
        = { armed := false, done := some (.ok ()) } := by
      simp [sleeperStep, sleeperInit]
    rw [this]
    exact sleeperRun_frozen evs _ rfl
  rw [h1, h2, h3]
  exact ⟨rfl, rfl, rfl, rfl⟩

/-- C8: `sleep_abortable(duration)` with no abort source fails with
`SleepAborted` if and when the engine initiates shutdown before the
duration elapses, and otherwise resolves with success when the timer
(the stop-wait's timeout) fires. Both possible outcomes of the
collaborator are covered. -/
theorem sleep_abortable_nosrc_spec :
    sleep_abortable_nosrc .engineStopped = .error .sleepAborted ∧
    sleep_abortable_nosrc .timedOut = .ok () :=
  ⟨rfl, rfl⟩

/-- C3: for every range and action passed to `do_for_each`, the action
is invoked on elements strictly in order — the trace is sequential:
each invocation starts only after the previous invocation's future
resolved — and if an invocation's future fails then the returned future
carries that first error and the action is not invoked on any later
element (the invoked elements are exactly the range up to and including
the first failing one, in range order). -/
theorem do_for_each_sequential_spec {α ε : Type} [DecidableEq α] (action : α → FutSpec ε)
    (elems : List α) (pre : List Bool) :
    seqOk (do_for_each_impl action elems pre).1 = true ∧
    invokesOf (do_for_each_impl action elems pre).1 = invokedUpTo action elems ∧
    (do_for_each_impl action elems pre).2 = firstErrResult action elems := by
  induction elems generalizing pre with
  | nil => exact ⟨rfl, rfl, rfl⟩
  | cons a rest ih =>
    cases h1 : (action a).avail with
    | true =>
      cases h2 : (action a).res with
      | error e =>
        refine ⟨?_, ?_, ?_⟩ <;>
          simp [do_for_each_impl, h1, h2, seqOk, seqOkFrom, invokesOf, invokedUpTo,
            firstErrResult]
      | ok u =>
        obtain ⟨ih1, ih2, ih3⟩ := ih pre.tail
        cases hp : pre.head?.getD false <;> refine ⟨?_, ?_, ?_⟩
        · simpa [do_for_each_impl, h1, h2, hp, seqOk, seqOkFrom] using ih1
        · simpa [do_for_each_impl, h1, h2, hp, invokesOf, invokedUpTo] using ih2
        · simpa [do_for_each_impl, h1, h2, hp, firstErrResult] using ih3
        · simpa [do_for_each_impl, h1, h2, hp, seqOk, seqOkFrom] using ih1
        · simpa [do_for_each_impl, h1, h2, hp, invokesOf, invokedUpTo] using ih2
        · simpa [do_for_each_impl, h1, h2, hp, firstErrResult] using ih3
    | false =>
      cases h2 : (action a).res with
      | error e =>
        refine ⟨?_, ?_, ?_⟩ <;>
          simp [do_for_each_impl, h1, h2, seqOk, seqOkFrom, invokesOf, invokedUpTo,
            firstErrResult]
      | ok u =>
        obtain ⟨ih1, ih2, ih3⟩ := ih pre
        refine ⟨?_, ?_, ?_⟩
        · simpa [do_for_each_impl, h1, h2, seqOk, seqOkFrom] using ih1
        · simpa [do_for_each_impl, h1, h2, invokesOf, invokedUpTo] using ih2
        · simpa [do_for_each_impl, h1, h2, firstErrResult] using ih3

/-- Counterexample for C4 as stated: with the preemption flag set, an
action whose first invocation returns a ready future carrying
`stop_iteration::yes` still makes `repeat` allocate a `repeater`
continuation, schedule it, and return a non-ready future. -/
theorem repeat_ready_yes_counterexample :
    ((repeatRun (ε := Unit) [{ avail := true, res := .ok .yes }] [true]).ready = false) ∧
    ((repeatRun (ε := Unit) [{ avail := true, res := .ok .yes }] [true]).allocs = 1) ∧
    ((repeatRun (ε := Unit) [{ avail := true, res := .ok .yes }] [true]).scheds = 1) :=
  ⟨rfl, rfl, rfl⟩

/-- C4 (amended): for every action passed to `repeat`, if the first
invocation returns a ready future carrying `stop_iteration::yes` and no
preemption is pending at that point, `repeat` returns a ready future
without allocating or scheduling any continuation task. -/
theorem repeat_ready_yes_no_preempt {ε : Type} (f : RepeatFut ε) (rest : List (RepeatFut ε))
    (pre : List Bool) (havail : f.avail = true) (hres : f.res = .ok .yes)
    (hpre : pre.headD false = false) :
    repeatRun (f :: rest) pre = { ready := true, allocs := 0, scheds := 0, res := .ok () } := by
  rw [List.headD_eq_head?] at hpre
  simp [repeatRun, havail, hres, hpre]

/-- Witness for the amended C4: a one-invocation script, ready `yes`, no
preemption pending. -/
theorem repeat_ready_yes_no_preempt_witness :
    repeatRun (ε := Unit) [{ avail := true, res := .ok .yes }] []
      = { ready := true, allocs := 0, scheds := 0, res := .ok () } :=
  repeat_ready_yes_no_preempt { avail := true, res := .ok .yes } [] [] rfl rfl rfl

/-- Appending one completion to the completion list moves the first
error by exactly the code's error-recording rule: an already-recorded
first error is kept, otherwise the new completion's error, if any, is
recorded. -/
theorem firstErrOf_snoc {α ε : Type} (l : List (α × Except ε Unit)) (a : α)
    (r : Except ε Unit) :
    firstErrOf (l ++ [(a, r)]) = updErr (firstErrOf l) r := by
  induction l with
  | nil => cases hr : errOf r <;> simp [firstErrOf, updErr, hr]
  | cons p t ih =>
    obtain ⟨b, rb⟩ := p
    cases hrb : errOf rb <;> simp [firstErrOf, hrb, ih, updErr]

/-- The initial `max_concurrent_for_each` state satisfies the inductive
invariant. -/
theorem mcInv_init {α ε : Type} (action : α → Except ε Unit) (mc : Nat) (elems : List α) :
    MCInv action mc (mcInit elems mc) := by
  refine ⟨by simp [mcInit], rfl, by simp [mcInit], ?_, ?_, ?_⟩
  · intro p hp
    simp [mcInit] at hp
  · intro hf
    simp [mcInit] at hf
  · intro hd
    simp [mcInit] at hd

/-- Every `max_concurrent_for_each` transition preserves the inductive
invariant. -/
theorem mcInv_step {α ε : Type} {action : α → Except ε Unit} {mc : Nat}
    {s s' : MCState α ε} (h : MCInv action mc s) (hst : MCStep action mc s s') :
    MCInv action mc s' := by
  cases hst with
  | launch a rest hdr hrem hu =>
    refine ⟨?_, h.errFirst, ?_, h.compResults, ?_, ?_⟩
    · show s.units - 1 + (s.inflight ++ [a]).length = mc
      have hb := h.unitsBalance
      simp only [List.length_append, List.length_cons, List.length_nil]
      omega
    · show List.Perm (s.completions.map Prod.fst ++ (s.inflight ++ [a])) (s.launched ++ [a])
      rw [← List.append_assoc]
      exact h.launchedPerm.append_right [a]
    · intro hf
      have hf' : s.finished = true := hf
      obtain ⟨hd, -⟩ := h.finishedImp hf'
      rw [hdr] at hd
      simp at hd
    · intro hd
      have hd' : s.draining = true := hd
      rw [hdr] at hd'
      simp at hd'
  | complete a fore aft hin =>
    refine ⟨?_, ?_, ?_, ?_, ?_, ?_⟩
    · show s.units + 1 + (fore ++ aft).length = mc
      have hb := h.unitsBalance
      rw [hin] at hb
      simp only [List.length_append, List.length_cons] at hb ⊢
      omega
    · show updErr s.err (action a) = firstErrOf (s.completions ++ [(a, action a)])
      rw [firstErrOf_snoc, ← h.errFirst]
    · show List.Perm ((s.completions ++ [(a, action a)]).map Prod.fst ++ (fore ++ aft))
        s.launched
      have hmid : List.Perm (a :: (fore ++ aft)) (fore ++ a :: aft) := List.perm_middle.symm
      have h1 : (s.completions ++ [(a, action a)]).map Prod.fst ++ (fore ++ aft)
          = s.completions.map Prod.fst ++ (a :: (fore ++ aft)) := by simp
      rw [h1]
      refine List.Perm.trans (List.Perm.append_left _ hmid) ?_
      rw [← hin]
      exact h.launchedPerm
    · intro p hp
      have hp' : p ∈ s.completions ++ [(a, action a)] := hp
      rcases List.mem_append.mp hp' with hmem | hmem
      · exact h.compResults p hmem
      · have hpa : p = (a, action a) := by simpa using hmem
        rw [hpa]
    · intro hf
      have hf' : s.finished = true := hf
      obtain ⟨hd, hu⟩ := h.finishedImp hf'
      have hb := h.unitsBalance
      rw [hin] at hb
      simp only [List.length_append, List.length_cons] at hb
      exfalso
      omega
    · intro hd
      have hd' : s.draining = true := hd
      exact h.drainingImp hd'
  | drainStart hdr hrem =>
    refine ⟨h.unitsBalance, h.errFirst, h.launchedPerm, h.compResults, ?_, ?_⟩
    · intro hf
      have hf' : s.finished = true := hf
      exact ⟨rfl, (h.finishedImp hf').2⟩
    · intro _
      exact hrem
  | finish hdr hu =>
    refine ⟨h.unitsBalance, h.errFirst, h.launchedPerm, h.compResults, ?_, ?_⟩
    · intro _
      exact ⟨hdr, hu⟩
    · intro _
      exact h.drainingImp hdr

/-- Every reachable state of a `max_concurrent_for_each` run satisfies
the inductive invariant. -/
theorem mcInv_reach {α ε : Type} {action : α → Except ε Unit} {mc : Nat} {elems : List α}
    {s : MCState α ε} (h : MCReach action mc (mcInit elems mc) s) : MCInv action mc s := by
  induction h with
  | refl => exact mcInv_init action mc elems
  | tail _ hstep ih => exact mcInv_step ih hstep

/-- C7: for every range, action and `max_concurrent > 0`, at every point
during a run of `max_concurrent_for_each` — at every reachable state —
the number of action invocations launched and not yet completed is at
most `max_concurrent`. -/
theorem max_concurrent_for_each_bound {α ε : Type} (action : α → Except ε Unit) (mc : Nat)
    (elems : List α) (s : MCState α ε) (_hmc : 0 < mc)
    (hreach : MCReach action mc (mcInit elems mc) s) :
    s.inflight.length ≤ mc := by
  have h := mcInv_reach hreach
  have hb := h.unitsBalance
  omega

/-- Witness for C7: the bound holds at the initial state of a concrete
run with two units. -/
theorem max_concurrent_for_each_bound_witness :
    (mcInit ([0] : List Nat) 2 : MCState Nat Unit).inflight.length ≤ 2 :=
  max_concurrent_for_each_bound (fun _ => .ok ()) 2 [0] _ (by decide)
    Relation.ReflTransGen.refl

/-- C6: for every range, action and `max_concurrent > 0`, when the
future returned by `max_concurrent_for_each` resolves (a reachable
finished state) every launched invocation has completed — nothing is in
flight, all semaphore units are reclaimed, and the completed elements
are exactly the launched ones — the result carries the first error in
completion order if any invocation failed, and no in-flight invocation
was cancelled: every completion carries its own action's result. -/
theorem max_concurrent_for_each_error_spec {α ε : Type} (action : α → Except ε Unit)
    (mc : Nat) (elems : List α) (s : MCState α ε) (_hmc : 0 < mc)
    (hreach : MCReach action mc (mcInit elems mc) s) (hfin : s.finished = true) :
    s.inflight = [] ∧ s.units = mc ∧
    List.Perm (s.completions.map Prod.fst) s.launched ∧
    (∀ p ∈ s.completions, p.2 = action p.1) ∧
    mcResult s = (match firstErrOf s.completions with
      | some e => Except.error e
      | none => Except.ok ()) := by
  have h := mcInv_reach hreach
  obtain ⟨hd, hu⟩ := h.finishedImp hfin
  have hb := h.unitsBalance
  have hempty : s.inflight = [] := by
    have hlen : s.inflight.length = 0 := by omega
    exact List.length_eq_zero.mp hlen
  refine ⟨hempty, hu, ?_, h.compResults, ?_⟩
  · have hp := h.launchedPerm
    rw [hempty] at hp
    simpa using hp
  · rw [← h.errFirst]
    cases herr : s.err <;> simp [mcResult, herr]

/-- Witness for C6: a concrete run over the one-element range with a
failing action — launch, complete, drain, finish — reaches a finished
state with nothing in flight. -/
theorem max_concurrent_for_each_error_spec_witness :
    ({ remaining := [], units := 1, inflight := [], completions := [(42, Except.error ())],
       err := some (), launched := [42], draining := true, finished := true }
      : MCState Nat Unit).inflight = [] := by
  have h1 : MCStep (fun _ => (Except.error () : Except Unit Unit)) 1 (mcInit [42] 1)
      { remaining := [], units := 0, inflight := [42], completions := [], err := none,
        launched := [42], draining := false, finished := false } :=
    MCStep.launch _ 42 [] rfl rfl (by decide)
  have h2 : MCStep (fun _ => (Except.error () : Except Unit Unit)) 1
      { remaining := [], units := 0, inflight := [42], completions := [], err := none,
        launched := [42], draining := false, finished := false }
      { remaining := [], units := 1, inflight := [], completions := [(42, Except.error ())],
        err := some (), launched := [42], draining := false, finished := false } :=
    MCStep.complete _ 42 [] [] rfl
  have h3 : MCStep (fun _ => (Except.error () : Except Unit Unit)) 1
      { remaining := [], units := 1, inflight := [], completions := [(42, Except.error ())],
        err := some (), launched := [42], draining := false, finished := false }
      { remaining := [], units := 1, inflight := [], completions := [(42, Except.error ())],
        err := some (), launched := [42], draining := true, finished := false } :=
    MCStep.drainStart _ rfl rfl
  have h4 : MCStep (fun _ => (Except.error () : Except Unit Unit)) 1
      { remaining := [], units := 1, inflight := [], completions := [(42, Except.error ())],
        err := some (), launched := [42], draining := true, finished := false }
      { remaining := [], units := 1, inflight := [], completions := [(42, Except.error ())],
        err := some (), launched := [42], draining := true, finished := true } :=
    MCStep.finish _ rfl rfl
  exact (max_concurrent_for_each_error_spec (fun _ => (Except.error () : Except Unit Unit))
    1 [42] _ (by decide)
    (Relation.ReflTransGen.tail (Relation.ReflTransGen.tail
      (Relation.ReflTransGen.tail (Relation.ReflTransGen.single h1) h2) h3) h4) rfl).1

/-- In a `max_concurrent_for_each` run over the empty range, nothing is
ever launched, completed, or recorded as an error, and the range stays
empty. -/
theorem mc_empty_frozen {α ε : Type} {action : α → Except ε Unit} {mc : Nat}
    {s : MCState α ε} (h : MCReach action mc (mcInit [] mc) s) :
    s.remaining = [] ∧ s.launched = [] ∧ s.inflight = [] ∧ s.completions = [] ∧
      s.err = none := by
  induction h with
  | refl => exact ⟨rfl, rfl, rfl, rfl, rfl⟩
  | tail hr hstep ih =>
    obtain ⟨h1, h2, h3, h4, h5⟩ := ih
    cases hstep with
    | launch a rest hdr hrem hu =>
      rw [h1] at hrem
      exact List.noConfusion hrem
    | complete a fore aft hin =>
      rw [h3] at hin
      simp at hin
    | drainStart hdr hrem => exact ⟨h1, h2, h3, h4, h5⟩
    | finish hdr hu => exact ⟨h1, h2, h3, h4, h5⟩

/-- C5: for every action, `do_for_each`, `parallel_for_each` and
`max_concurrent_for_each` applied to an empty range return a ready
future immediately without invoking the action: the sequential loop
returns success with an empty trace, the parallel loop allocates no
state and is ready with success, and the bounded-parallel run never
launches anything, resolves with success whenever it finishes, and can
finish by internal steps alone. -/
theorem empty_range_ready {α ε : Type} (action : α → FutSpec ε) (pre : List Bool)
    (mc : Nat) :
    do_for_each_impl action [] pre = ([], .ok ()) ∧
    parallel_for_each action []
      = { invoked := [], allocated := false, ready := true, res := .ok () } ∧
    (∀ s : MCState α ε, MCReach (fun a => (action a).res) mc (mcInit [] mc) s →
      s.launched = [] ∧ (s.finished = true → mcResult s = .ok ())) ∧
    MCReach (fun a => (action a).res) mc (mcInit [] mc)
      { mcInit ([] : List α) mc with draining := true, finished := true } ∧
    mcResult ({ mcInit ([] : List α) mc with draining := true, finished := true }
      : MCState α ε) = .ok () := by
  refine ⟨rfl, rfl, ?_, ?_, rfl⟩
  · intro s hs
    obtain ⟨h1, h2, h3, h4, h5⟩ := mc_empty_frozen hs
    refine ⟨h2, fun _ => ?_⟩
    simp [mcResult, h5]
  · have hstep1 : MCStep (fun a => (action a).res) mc (mcInit [] mc)
        { mcInit ([] : List α) mc with draining := true } :=
      MCStep.drainStart _ rfl rfl
    have hstep2 : MCStep (fun a => (action a).res) mc
        ({ mcInit ([] : List α) mc with draining := true })
        { mcInit ([] : List α) mc with draining := true, finished := true } :=
      MCStep.finish _ rfl rfl
    exact Relation.ReflTransGen.tail (Relation.ReflTransGen.single hstep1) hstep2

/-- Witness for C5: in a concrete empty-range bounded-parallel run, the
initial state has launched nothing. -/
theorem empty_range_ready_witness :
    (mcInit ([] : List Nat) 1 : MCState Nat Unit).launched = [] :=
  ((empty_range_ready (fun _ => { avail := true, res := .ok () }) [] 1).2.2.1 _
    Relation.ReflTransGen.refl).1

/-- C9: the gate destructor's assertion holds exactly when the entry
count is zero, so destroying a gate with a non-zero count is an
assertion failure; the closed flag is not consulted, so a gate that was
never closed may be destroyed as long as its count is zero, and a gate
with an outstanding `enter` may not. -/
theorem gate_dtor_spec (g : GateState) (n : Nat) (b c : Bool) :
    gate_dtor_passes g = (g.count == 0) ∧
    gate_dtor_passes { count := 0, closed := b } = true ∧
    gate_dtor_passes { count := n + 1, closed := c } = false ∧
    gate_dtor_passes (gate_enter { count := 0, closed := false }).1 = false := by
  refine ⟨rfl, rfl, ?_, ?_⟩
  · simp [gate_dtor_passes]
  · simp [gate_dtor_passes, gate_enter]

end SeastarSpec
